import Mathlib

/-!
Shallow embedding of the roulette betting-strategy simulators of
`Project_functions.py`.

Each Python simulator iterates over a data frame of spins keeping one
independent track of state per bet type (`red`, `black`, `even`, `odd`):
the loop body for a bet type reads and writes only that bet type's entry
of the state dictionaries, so every track is the fold of a per-spin step
function over that bet type's win flags.  We embed the per-track step
functions directly from the source and run them with `runStates`, which
returns the whole state trace (initial state plus one state per spin);
the balance list the Python function returns for a bet type is the
`balance` projection of that trace.

Python `int` is embedded as `Int`.  The Fibonacci index is kept as a
`Nat`; the source's `max(0, current_index - 2)` coincides with truncated
`Nat` subtraction, and the step theorems state the update in `Int` form
`max 0 (idx - 2)` to make this explicit.  The random amounts produced by
the single `random.randint(5, 20)` call per loop iteration in
`no_strategy` are modelled by an injected draw stream `rand : Nat → Int`
giving the drawn amount for each spin.

The table-limit variants build a dict keyed by each table limit in
`table_limits`, every limit being an isolated simulation with fresh
state; they are embedded per table limit: the function of one limit `L`
is the entry the Python dict holds at key `L`.
-/

namespace RouletteSim

/-- The four even-money bet types every simulator tracks in parallel. -/
inductive BetType
  | red
  | black
  | even
  | odd
deriving DecidableEq

/-- One spin outcome: the four flags `"Red Bet Win"`, `"Black Bet Win"`,
`"Even Bet Win"`, `"Odd Bet Win"` (the source's `== 1` comparison is
embedded as the flag being `true`). -/
structure Spin where
  redWin : Bool
  blackWin : Bool
  evenWin : Bool
  oddWin : Bool
deriving DecidableEq

/-- The win flag of a spin for a given bet type
(`row[f"{bet_type.capitalize()} Bet Win"] == 1`). -/
def Spin.win (s : Spin) : BetType → Bool
  | .red => s.redWin
  | .black => s.blackWin
  | .even => s.evenWin
  | .odd => s.oddWin

/-- Default spin (used only as a `getD` fallback). -/
def spinD : Spin := ⟨false, false, false, false⟩

/-- A spin on which all four bets win. -/
def spinWin : Spin := ⟨true, true, true, true⟩

/-- A spin on which all four bets lose. -/
def spinLoss : Spin := ⟨false, false, false, false⟩

/-- The win flags of one bet type across a spin sequence: the values the
loop body of that bet type branches on, in order. -/
def flagsOf (data : List Spin) (b : BetType) : List Bool :=
  data.map (fun s => s.win b)

/-- Run a per-spin step function over a list of win flags, returning the
whole state trace: the initial state followed by one state per spin. -/
def runStates {σ : Type} (step : σ → Bool → σ) (s : σ) : List Bool → List σ
  | [] => [s]
  | w :: ws => s :: runStates step (step s w) ws

/-! ### `no_strategy` -/

/-- Per-track state of `no_strategy`: the spin counter (the `enumerate`
index) and the running balance. -/
structure NoState where
  spin : Nat
  balance : Int
deriving DecidableEq

/-- Default `NoState` (used only as a `getD` fallback). -/
def noStateD : NoState := ⟨0, 0⟩

/-- `bet = initial_bet if spin == 0 else random.randint(5, 20)`, with the
value of the `randint` call at each spin supplied by the stream `rand`. -/
def noStrategyBet (initial_bet : Int) (rand : Nat → Int) (spin : Nat) : Int :=
  if spin = 0 then initial_bet else rand spin

/-- One spin of `no_strategy` for one bet type:
`balances[bt].append(balances[bt][-1] + (bet if row[...] == 1 else -bet))`. -/
def noStrategyStep (initial_bet : Int) (rand : Nat → Int) (s : NoState) (w : Bool) : NoState :=
  { spin := s.spin + 1
    balance := s.balance +
      (if w then noStrategyBet initial_bet rand s.spin
       else -(noStrategyBet initial_bet rand s.spin)) }

/-- State trace of `no_strategy` for one bet type. -/
def noStrategyStates (rand : Nat → Int) (data : List Spin) (initial_bet : Int)
    (b : BetType) : List NoState :=
  runStates (noStrategyStep initial_bet rand) ⟨0, 0⟩ (flagsOf data b)

/-- `no_strategy(data, initial_bet)[bet_type]`: the balance trajectory of
one bet type, the draw stream standing for the per-spin `randint` calls. -/
def no_strategy (rand : Nat → Int) (data : List Spin) (initial_bet : Int)
    (b : BetType) : List Int :=
  (noStrategyStates rand data initial_bet b).map NoState.balance

/-- Following the spec's words in 4.1 ("independent across bet types"):
a variant of `no_strategy` in which every bet type has its own draw
stream.  The source draws once per spin and shares the amount across the
four bet types; this definition exists only to be compared with
`no_strategy`. -/
def no_strategy_indep_draws (randB : BetType → Nat → Int) (data : List Spin)
    (initial_bet : Int) (b : BetType) : List Int :=
  no_strategy (randB b) data initial_bet b

/-! ### `martingale_strategy` and `d_alembert_strategy` -/

/-- Per-track state of the Martingale and D'Alembert simulators: the
current bet size and the running balance. -/
structure BetState where
  bet : Int
  balance : Int
deriving DecidableEq

/-- Default `BetState` (used only as a `getD` fallback). -/
def betStateD : BetState := ⟨0, 0⟩

/-- One spin of `martingale_strategy` for one bet type: on a win append
`balance + bet` and reset the bet to `initial_bet`; on a loss append
`balance - bet` and double the bet (`bets[bet_type] *= 2`). -/
def martingaleStep (initial_bet : Int) (s : BetState) (w : Bool) : BetState :=
  if w then { bet := initial_bet, balance := s.balance + s.bet }
  else { bet := s.bet * 2, balance := s.balance - s.bet }

/-- State trace of `martingale_strategy` for one bet type. -/
def martingaleStates (data : List Spin) (initial_bet : Int) (b : BetType) : List BetState :=
  runStates (martingaleStep initial_bet) ⟨initial_bet, 0⟩ (flagsOf data b)

/-- `martingale_strategy(data, initial_bet)[bet_type]`. -/
def martingale_strategy (data : List Spin) (initial_bet : Int) (b : BetType) : List Int :=
  (martingaleStates data initial_bet b).map BetState.balance

/-- One spin of `d_alembert_strategy` for one bet type: on a win append
`balance + bet` and set `bets[bet_type] = max(initial_bet, bet - initial_bet)`;
on a loss append `balance - bet` and set `bets[bet_type] += initial_bet`. -/
def dAlembertStep (initial_bet : Int) (s : BetState) (w : Bool) : BetState :=
  if w then { bet := max initial_bet (s.bet - initial_bet), balance := s.balance + s.bet }
  else { bet := s.bet + initial_bet, balance := s.balance - s.bet }

/-- State trace of `d_alembert_strategy` for one bet type. -/
def dAlembertStates (data : List Spin) (initial_bet : Int) (b : BetType) : List BetState :=
  runStates (dAlembertStep initial_bet) ⟨initial_bet, 0⟩ (flagsOf data b)

/-- `d_alembert_strategy(data, initial_bet)[bet_type]`. -/
def d_alembert_strategy (data : List Spin) (initial_bet : Int) (b : BetType) : List Int :=
  (dAlembertStates data initial_bet b).map BetState.balance

/-! ### `fibonacci_strategy` -/

/-- Per-track state of the Fibonacci simulators: the growable sequence,
the current index into it, and the running balance. -/
structure FibState where
  seq : List Int
  idx : Nat
  balance : Int
deriving DecidableEq

/-- Default `FibState` (used only as a `getD` fallback). -/
def fibD : FibState := ⟨[], 0, 0⟩

/-- `sequences[bet_type].append(sequences[bet_type][-1] + sequences[bet_type][-2])`:
append the sum of the last two entries. -/
def fibExtend (seq : List Int) : List Int :=
  seq ++ [seq.getD (seq.length - 1) 0 + seq.getD (seq.length - 2) 0]

/-- One spin of `fibonacci_strategy` for one bet type.  The wager is
`sequences[bet_type][current_index] * initial_bet`.  On a win the index
retreats two steps (`max(0, current_index - 2)`, which is truncated `Nat`
subtraction here); on a loss the index advances one step and the sequence
is extended when the new index reaches its length. -/
def fibStep (initial_bet : Int) (s : FibState) (w : Bool) : FibState :=
  let bet := s.seq.getD s.idx 0 * initial_bet
  if w then { seq := s.seq, idx := s.idx - 2, balance := s.balance + bet }
  else
    { seq := if s.seq.length ≤ s.idx + 1 then fibExtend s.seq else s.seq
      idx := s.idx + 1
      balance := s.balance - bet }

/-- State trace of `fibonacci_strategy` for one bet type: sequence seeded
`[1, 1]`, index `0`, balance `0`. -/
def fibStates (data : List Spin) (initial_bet : Int) (b : BetType) : List FibState :=
  runStates (fibStep initial_bet) ⟨[1, 1], 0, 0⟩ (flagsOf data b)

/-- `fibonacci_strategy(data, initial_bet)[bet_type]`. -/
def fibonacci_strategy (data : List Spin) (initial_bet : Int) (b : BetType) : List Int :=
  (fibStates data initial_bet b).map FibState.balance

/-! ### `martingale_strategy_with_table_limits` (one table limit) -/

/-- One spin of `martingale_strategy_with_table_limits` for one bet type
and one table limit: the amount wagered is `min(bets[bet_type], table_limit)`;
a win resets the stored bet to `initial_bet`, a loss sets it to
`min(bets[bet_type] * 2, table_limit)` (doubling the stored bet, not the
clamped amount). -/
def martingaleLimStep (initial_bet table_limit : Int) (s : BetState) (w : Bool) : BetState :=
  let bet := min s.bet table_limit
  if w then { bet := initial_bet, balance := s.balance + bet }
  else { bet := min (s.bet * 2) table_limit, balance := s.balance - bet }

/-- State trace of `martingale_strategy_with_table_limits` for one bet
type and one table limit. -/
def martingaleLimStates (data : List Spin) (initial_bet table_limit : Int)
    (b : BetType) : List BetState :=
  runStates (martingaleLimStep initial_bet table_limit) ⟨initial_bet, 0⟩ (flagsOf data b)

/-- `martingale_strategy_with_table_limits(data, initial_bet, limits)[table_limit][bet_type]`:
each limit in the Python `table_limits` list is an isolated run with
fresh state; this is the run of one limit. -/
def martingale_strategy_with_table_limits (data : List Spin)
    (initial_bet table_limit : Int) (b : BetType) : List Int :=
  (martingaleLimStates data initial_bet table_limit b).map BetState.balance

/-- The amounts actually wagered, spin by spin, by
`martingale_strategy_with_table_limits` for one bet type and one limit:
the local `bet = min(bets[bet_type], table_limit)` of each iteration
(the final state places no wager, hence `dropLast`). -/
def martingaleLimWagers (data : List Spin) (initial_bet table_limit : Int)
    (b : BetType) : List Int :=
  ((martingaleLimStates data initial_bet table_limit b).dropLast).map
    (fun s => min s.bet table_limit)

/-! ### `fibonacci_strategy_with_table_limits` (one table limit) -/

/-- One spin of `fibonacci_strategy_with_table_limits` for one bet type
and one table limit: the amount wagered is
`min(sequences[bet_type][current_index] * initial_bet, table_limit)`;
the sequence/index progression is the one of `fibonacci_strategy`,
uncapped. -/
def fibLimStep (initial_bet table_limit : Int) (s : FibState) (w : Bool) : FibState :=
  let bet := min (s.seq.getD s.idx 0 * initial_bet) table_limit
  if w then { seq := s.seq, idx := s.idx - 2, balance := s.balance + bet }
  else
    { seq := if s.seq.length ≤ s.idx + 1 then fibExtend s.seq else s.seq
      idx := s.idx + 1
      balance := s.balance - bet }

/-- State trace of `fibonacci_strategy_with_table_limits` for one bet
type and one table limit. -/
def fibLimStates (data : List Spin) (initial_bet table_limit : Int)
    (b : BetType) : List FibState :=
  runStates (fibLimStep initial_bet table_limit) ⟨[1, 1], 0, 0⟩ (flagsOf data b)

/-- `fibonacci_strategy_with_table_limits(data, initial_bet, limits)[table_limit][bet_type]`:
the run of one limit (see `martingale_strategy_with_table_limits`). -/
def fibonacci_strategy_with_table_limits (data : List Spin)
    (initial_bet table_limit : Int) (b : BetType) : List Int :=
  (fibLimStates data initial_bet table_limit b).map FibState.balance

/-- The amounts actually wagered, spin by spin, by
`fibonacci_strategy_with_table_limits` for one bet type and one limit. -/
def fibLimWagers (data : List Spin) (initial_bet table_limit : Int)
    (b : BetType) : List Int :=
  ((fibLimStates data initial_bet table_limit b).dropLast).map
    (fun s => min (s.seq.getD s.idx 0 * initial_bet) table_limit)

/-- The sequence/index part of the Fibonacci progression, shared verbatim
by `fibStep` and `fibLimStep`. -/
def fibProgStep (p : List Int × Nat) (w : Bool) : List Int × Nat :=
  if w then (p.1, p.2 - 2)
  else ((if p.1.length ≤ p.2 + 1 then fibExtend p.1 else p.1), p.2 + 1)

/-- The classic Fibonacci sequence seeded `1, 1`. -/
def fibRef : Nat → Int
  | 0 => 1
  | 1 => 1
  | n + 2 => fibRef n + fibRef (n + 1)

/-- A list is an initial segment of the classic Fibonacci sequence seeded
`[1, 1]` and holds at least the two seed entries. -/
def FibSeeded (l : List Int) : Prop :=
  2 ≤ l.length ∧ ∀ i < l.length, l.getD i 0 = fibRef i

/-! ### Concrete inputs used by witnesses and counterexamples -/

/-- One spin, all four bets win. -/
def dataW1 : List Spin := [spinWin]

/-- Two spins, all four bets win both times. -/
def dataW2 : List Spin := [spinWin, spinWin]

/-- Four spins, all four bets win every time (the scenario of spec 8). -/
def dataW4 : List Spin := [spinWin, spinWin, spinWin, spinWin]

/-- One spin, all four bets lose. -/
def dataL1 : List Spin := [spinLoss]

/-- Two spins, all four bets lose both times. -/
def dataL2 : List Spin := [spinLoss, spinLoss]

/-- A draw stream whose every draw is `5`. -/
def rand5 : Nat → Int := fun _ => 5

/-- A draw stream whose every draw is `7`. -/
def rand7 : Nat → Int := fun _ => 7

/-- A draw stream whose every draw is `10`. -/
def rand10 : Nat → Int := fun _ => 10

/-- Per-bet-type draw streams: red draws `15`, the others draw `16`. -/
def randB0 : BetType → Nat → Int := fun b _ => if b = BetType.red then 15 else 16

/-! ### Generic facts about state traces -/

lemma runStates_length {σ : Type} (step : σ → Bool → σ) (s : σ) (ws : List Bool) :
    (runStates step s ws).length = ws.length + 1 := by
  induction ws generalizing s with
  | nil => rfl
  | cons w ws ih => simp [runStates, ih]

lemma runStates_getD_zero {σ : Type} (step : σ → Bool → σ) (s d : σ) (ws : List Bool) :
    (runStates step s ws).getD 0 d = s := by
  cases ws <;> rfl

lemma runStates_getD_succ {σ : Type} (step : σ → Bool → σ) (s d : σ) (ws : List Bool)
    (i : Nat) (h : i < ws.length) :
    (runStates step s ws).getD (i + 1) d =
      step ((runStates step s ws).getD i d) (ws.getD i false) := by
  induction ws generalizing s i with
  | nil => simp at h
  | cons w ws ih =>
    cases i with
    | zero =>
      simp only [runStates, List.getD_cons_succ, List.getD_cons_zero]
      rw [runStates_getD_zero]
    | succ j =>
      have hj : j < ws.length := by simp [List.length_cons] at h; omega
      simpa [runStates] using ih (step s w) j hj

lemma runStates_inv {σ : Type} (step : σ → Bool → σ) (inv : σ → Prop)
    (hstep : ∀ t w, inv t → inv (step t w)) :
    ∀ (ws : List Bool) (s : σ), inv s → ∀ t ∈ runStates step s ws, inv t := by
  intro ws
  induction ws with
  | nil =>
    intro s hs t ht
    simp [runStates] at ht
    exact ht ▸ hs
  | cons w ws ih =>
    intro s hs t ht
    simp only [runStates, List.mem_cons] at ht
    rcases ht with rfl | ht
    · exact hs
    · exact ih (step s w) (hstep s w hs) t ht

lemma runStates_map {σ τ : Type} (stepA : σ → Bool → σ) (stepB : τ → Bool → τ)
    (p : σ → τ) (hcomm : ∀ s w, p (stepA s w) = stepB (p s) w) :
    ∀ (ws : List Bool) (s : σ),
      (runStates stepA s ws).map p = runStates stepB (p s) ws := by
  intro ws
  induction ws with
  | nil => intro s; rfl
  | cons w ws ih =>
    intro s
    simp only [runStates, List.map_cons, List.cons.injEq, true_and]
    rw [ih (stepA s w), hcomm]

lemma traj_length {σ : Type} (step : σ → Bool → σ) (s : σ) (p : σ → Int) (ws : List Bool) :
    ((runStates step s ws).map p).length = ws.length + 1 := by
  simp [runStates_length]

lemma traj_getD_zero {σ : Type} (step : σ → Bool → σ) (s : σ) (p : σ → Int)
    (ws : List Bool) (d : Int) :
    ((runStates step s ws).map p).getD 0 d = p s := by
  cases ws <;> rfl

lemma getD_map_lt {α β : Type} (f : α → β) (l : List α) (i : Nat) (h : i < l.length)
    (d : β) (d0 : α) : (l.map f).getD i d = f (l.getD i d0) := by
  have h1 : l[i]? = some l[i] := List.getElem?_eq_getElem h
  simp [List.getD_eq_getElem?_getD, List.getElem?_map, h1]

lemma getD_dropLast_lt {α : Type} (l : List α) (i : Nat) (h : i + 1 < l.length) (d : α) :
    l.dropLast.getD i d = l.getD i d := by
  have h1 : i < l.dropLast.length := by simp [List.length_dropLast]; omega
  have h2 : i < l.length := by omega
  rw [List.getD_eq_getElem l.dropLast d h1, List.getD_eq_getElem l d h2]
  exact List.getElem_dropLast ..

lemma getD_mem {α : Type} (l : List α) (i : Nat) (d : α) (h : i < l.length) :
    l.getD i d ∈ l := by
  rw [List.getD_eq_getElem l d h]
  exact l.getElem_mem h

lemma flagsOf_length (data : List Spin) (b : BetType) :
    (flagsOf data b).length = data.length := by
  simp [flagsOf]

lemma flagsOf_getD (data : List Spin) (b : BetType) (i : Nat) (h : i < data.length) :
    (flagsOf data b).getD i false = (data.getD i spinD).win b := by
  exact getD_map_lt _ data i h false spinD

/-! ### The Fibonacci reference sequence -/

lemma fibRef_pos : ∀ n, 1 ≤ fibRef n
  | 0 => le_refl 1
  | 1 => le_refl 1
  | n + 2 => by
    have h1 := fibRef_pos n
    have h2 := fibRef_pos (n + 1)
    simp only [fibRef]
    omega

lemma fibRef_mono (n : Nat) : fibRef n ≤ fibRef (n + 1) := by
  cases n with
  | zero => simp [fibRef]
  | succ m =>
    have h1 := fibRef_pos m
    simp only [fibRef]
    omega

lemma fibExtend_length (l : List Int) : (fibExtend l).length = l.length + 1 := by
  simp [fibExtend]

lemma fibExtend_seeded {l : List Int} (h : FibSeeded l) : FibSeeded (fibExtend l) := by
  obtain ⟨hlen, hval⟩ := h
  obtain ⟨k, hk⟩ : ∃ k, l.length = k + 2 := ⟨l.length - 2, by omega⟩
  constructor
  · rw [fibExtend_length]
    omega
  · intro i hi
    rw [fibExtend_length] at hi
    rcases Nat.lt_or_ge i l.length with hlt | hge
    · rw [fibExtend, List.getD_append _ _ _ _ hlt]
      exact hval i hlt
    · have hi2 : i = l.length := by omega
      subst hi2
      have hb1 : l.length - 1 = k + 1 := by omega
      have hb2 : l.length - 2 = k := by omega
      have e1 : l.getD (l.length - 1) 0 = fibRef (k + 1) := by
        rw [hb1]
        exact hval (k + 1) (by omega)
      have e2 : l.getD (l.length - 2) 0 = fibRef k := by
        rw [hb2]
        exact hval k (by omega)
      have e3 : (fibExtend l).getD l.length 0 =
          l.getD (l.length - 1) 0 + l.getD (l.length - 2) 0 := by
        rw [fibExtend, List.getD_append_right _ _ _ _ (le_refl _)]
        simp
      rw [e3, e1, e2, hk]
      simp only [fibRef]
      omega

lemma FibSeeded.nondecreasing {l : List Int} (h : FibSeeded l) (i : Nat)
    (hi : i + 1 < l.length) : l.getD i 0 ≤ l.getD (i + 1) 0 := by
  rw [h.2 i (by omega), h.2 (i + 1) hi]
  exact fibRef_mono i

/-! ### Invariants preserved by the Fibonacci steps -/

lemma fibStep_seq_seeded (ib : Int) (s : FibState) (w : Bool) (h : FibSeeded s.seq) :
    FibSeeded (fibStep ib s w).seq := by
  unfold fibStep
  dsimp only
  split
  · exact h
  · dsimp only
    split
    · exact fibExtend_seeded h
    · exact h

lemma fibStep_bounds (ib : Int) (s : FibState) (w : Bool) (h : s.idx < s.seq.length) :
    (fibStep ib s w).idx < (fibStep ib s w).seq.length := by
  unfold fibStep
  dsimp only
  split
  · dsimp only
    omega
  · dsimp only
    split
    · rw [fibExtend_length]
      omega
    · omega

lemma fibStep_seq_extend (ib : Int) (s : FibState) (w : Bool) :
    ∃ t, s.seq ++ t = (fibStep ib s w).seq := by
  unfold fibStep
  dsimp only
  split
  · exact ⟨[], by simp⟩
  · dsimp only
    split
    · exact ⟨[s.seq.getD (s.seq.length - 1) 0 + s.seq.getD (s.seq.length - 2) 0], rfl⟩
    · exact ⟨[], by simp⟩

lemma fibLimStep_bounds (ib L : Int) (s : FibState) (w : Bool) (h : s.idx < s.seq.length) :
    (fibLimStep ib L s w).idx < (fibLimStep ib L s w).seq.length := by
  unfold fibLimStep
  dsimp only
  split
  · dsimp only
    omega
  · dsimp only
    split
    · rw [fibExtend_length]
      omega
    · omega

lemma fibStates_bounds (data : List Spin) (ib : Int) (b : BetType) :
    ∀ st ∈ fibStates data ib b, st.idx < st.seq.length := by
  apply runStates_inv (fibStep ib) (fun st => st.idx < st.seq.length)
  · intro t w ht
    exact fibStep_bounds ib t w ht
  · decide

lemma fibLimStates_bounds (data : List Spin) (ib L : Int) (b : BetType) :
    ∀ st ∈ fibLimStates data ib L b, st.idx < st.seq.length := by
  apply runStates_inv (fibLimStep ib L) (fun st => st.idx < st.seq.length)
  · intro t w ht
    exact fibLimStep_bounds ib L t w ht
  · decide

lemma fibStates_seeded (data : List Spin) (ib : Int) (b : BetType) :
    ∀ st ∈ fibStates data ib b, FibSeeded st.seq := by
  apply runStates_inv (fibStep ib) (fun st => FibSeeded st.seq)
  · intro t w ht
    exact fibStep_seq_seeded ib t w ht
  · constructor
    · decide
    · decide

/-! ### Step equations (how each branch of each loop body rewrites the state) -/

lemma martingaleStep_win (ib : Int) (s : BetState) :
    martingaleStep ib s true = ⟨ib, s.balance + s.bet⟩ := rfl

lemma martingaleStep_loss (ib : Int) (s : BetState) :
    martingaleStep ib s false = ⟨s.bet * 2, s.balance - s.bet⟩ := rfl

lemma dAlembertStep_win (ib : Int) (s : BetState) :
    dAlembertStep ib s true = ⟨max ib (s.bet - ib), s.balance + s.bet⟩ := rfl

lemma dAlembertStep_loss (ib : Int) (s : BetState) :
    dAlembertStep ib s false = ⟨s.bet + ib, s.balance - s.bet⟩ := rfl

lemma fibStep_win (ib : Int) (s : FibState) :
    fibStep ib s true = ⟨s.seq, s.idx - 2, s.balance + s.seq.getD s.idx 0 * ib⟩ := rfl

lemma fibStep_loss (ib : Int) (s : FibState) :
    fibStep ib s false =
      ⟨if s.seq.length ≤ s.idx + 1 then fibExtend s.seq else s.seq, s.idx + 1,
        s.balance - s.seq.getD s.idx 0 * ib⟩ := rfl

lemma martingaleLimStep_win (ib L : Int) (s : BetState) :
    martingaleLimStep ib L s true = ⟨ib, s.balance + min s.bet L⟩ := rfl

lemma martingaleLimStep_loss (ib L : Int) (s : BetState) :
    martingaleLimStep ib L s false = ⟨min (s.bet * 2) L, s.balance - min s.bet L⟩ := rfl

lemma fibLimStep_win (ib L : Int) (s : FibState) :
    fibLimStep ib L s true =
      ⟨s.seq, s.idx - 2, s.balance + min (s.seq.getD s.idx 0 * ib) L⟩ := rfl

lemma fibLimStep_loss (ib L : Int) (s : FibState) :
    fibLimStep ib L s false =
      ⟨if s.seq.length ≤ s.idx + 1 then fibExtend s.seq else s.seq, s.idx + 1,
        s.balance - min (s.seq.getD s.idx 0 * ib) L⟩ := rfl

lemma noStrategyStep_eq (ib : Int) (rand : Nat → Int) (s : NoState) (w : Bool) :
    noStrategyStep ib rand s w =
      ⟨s.spin + 1,
        s.balance + (if w then noStrategyBet ib rand s.spin
                     else -(noStrategyBet ib rand s.spin))⟩ := rfl

/-! ### Bet-size invariants -/

lemma dAlembertStates_bet_ge (data : List Spin) (ib : Int) (b : BetType) (h0 : 0 ≤ ib) :
    ∀ st ∈ dAlembertStates data ib b, ib ≤ st.bet := by
  apply runStates_inv (dAlembertStep ib) (fun st => ib ≤ st.bet)
  · intro t w ht
    cases w with
    | true =>
      rw [dAlembertStep_win]
      exact le_max_left _ _
    | false =>
      rw [dAlembertStep_loss]
      dsimp only
      omega
  · exact le_refl ib

lemma martingaleLimStates_bet_ge (data : List Spin) (ib : Int) (b : BetType) (h0 : 0 ≤ ib) :
    ∀ st ∈ martingaleLimStates data ib ib b, ib ≤ st.bet := by
  apply runStates_inv (martingaleLimStep ib ib) (fun st => ib ≤ st.bet)
  · intro t w ht
    cases w with
    | true =>
      rw [martingaleLimStep_win]
    | false =>
      rw [martingaleLimStep_loss]
      dsimp only
      have h2 : ib ≤ t.bet * 2 := by omega
      exact le_min h2 (le_refl ib)
  · exact le_refl ib

/-! ### The spin counter of `no_strategy` -/

lemma noStrategyStates_spin (rand : Nat → Int) (data : List Spin) (ib : Int) (b : BetType) :
    ∀ i, i ≤ data.length →
      ((noStrategyStates rand data ib b).getD i noStateD).spin = i := by
  intro i
  induction i with
  | zero =>
    intro _
    rw [noStrategyStates, runStates_getD_zero]
  | succ j ih =>
    intro hj
    have hjlt : j < (flagsOf data b).length := by
      rw [flagsOf_length]
      omega
    have hspin := ih (by omega)
    rw [noStrategyStates] at hspin ⊢
    rw [runStates_getD_succ _ _ _ _ j hjlt, noStrategyStep_eq]
    dsimp only
    omega

/-! ### The sequence/index progression of the two Fibonacci simulators -/

lemma fibStep_prog (ib : Int) (s : FibState) (w : Bool) :
    ((fibStep ib s w).seq, (fibStep ib s w).idx) = fibProgStep (s.seq, s.idx) w := by
  cases w <;> rfl

lemma fibLimStep_prog (ib L : Int) (s : FibState) (w : Bool) :
    ((fibLimStep ib L s w).seq, (fibLimStep ib L s w).idx) = fibProgStep (s.seq, s.idx) w := by
  cases w <;> rfl

lemma fibLim_prog_eq (data : List Spin) (ib L : Int) (b : BetType) :
    (fibLimStates data ib L b).map (fun st => (st.seq, st.idx)) =
      (fibStates data ib b).map (fun st => (st.seq, st.idx)) := by
  have h1 := runStates_map (fibLimStep ib L) fibProgStep (fun st => (st.seq, st.idx))
    (fun s w => fibLimStep_prog ib L s w) (flagsOf data b) ⟨[1, 1], 0, 0⟩
  have h2 := runStates_map (fibStep ib) fibProgStep (fun st => (st.seq, st.idx))
    (fun s w => fibStep_prog ib s w) (flagsOf data b) ⟨[1, 1], 0, 0⟩
  rw [fibLimStates, fibStates, h1, h2]

lemma spinLoss_win (b : BetType) : spinLoss.win b = false := by
  cases b <;> rfl

lemma spinWin_win (b : BetType) : spinWin.win b = true := by
  cases b <;> rfl

lemma fibLim_streak_idx (ib L : Int) (b : BetType) (n : Nat) :
    ∀ k ≤ n, ((fibLimStates (List.replicate n spinLoss) ib L b).getD k fibD).idx = k := by
  intro k
  induction k with
  | zero =>
    intro _
    rw [fibLimStates, runStates_getD_zero]
  | succ j ih =>
    intro hj
    have hjlt : j < (flagsOf (List.replicate n spinLoss) b).length := by
      rw [flagsOf_length, List.length_replicate]
      omega
    have hflag : (flagsOf (List.replicate n spinLoss) b).getD j false = false := by
      rw [flagsOf_getD _ _ j (by rw [List.length_replicate]; omega)]
      rw [List.getD_eq_getElem _ _ (by rw [List.length_replicate]; omega)]
      rw [List.getElem_replicate]
      exact spinLoss_win b
    have hidx := ih (by omega)
    rw [fibLimStates] at hidx ⊢
    rw [runStates_getD_succ _ _ _ _ j hjlt, hflag, fibLimStep_loss]
    dsimp only
    omega

/-! ### Claim theorems -/

/-- C1: for every spin sequence, initial bet, draw stream, table limit and
bet type, the balance trajectory of every simulator (`no_strategy`,
`martingale_strategy`, `fibonacci_strategy`, `d_alembert_strategy`, and
the per-(table limit, bet type) runs of the two table-limit variants) has
length `number of spins + 1` and first element `0`; in particular the
empty spin sequence yields exactly `[0]` everywhere. -/
theorem trajectory_shape (rand : Nat → Int) (data : List Spin) (ib L : Int) (b : BetType) :
    ((no_strategy rand data ib b).length = data.length + 1 ∧
      (no_strategy rand data ib b).getD 0 0 = 0) ∧
    ((martingale_strategy data ib b).length = data.length + 1 ∧
      (martingale_strategy data ib b).getD 0 0 = 0) ∧
    ((fibonacci_strategy data ib b).length = data.length + 1 ∧
      (fibonacci_strategy data ib b).getD 0 0 = 0) ∧
    ((d_alembert_strategy data ib b).length = data.length + 1 ∧
      (d_alembert_strategy data ib b).getD 0 0 = 0) ∧
    ((martingale_strategy_with_table_limits data ib L b).length = data.length + 1 ∧
      (martingale_strategy_with_table_limits data ib L b).getD 0 0 = 0) ∧
    ((fibonacci_strategy_with_table_limits data ib L b).length = data.length + 1 ∧
      (fibonacci_strategy_with_table_limits data ib L b).getD 0 0 = 0) ∧
    (no_strategy rand [] ib b = [0] ∧ martingale_strategy [] ib b = [0] ∧
      fibonacci_strategy [] ib b = [0] ∧ d_alembert_strategy [] ib b = [0] ∧
      martingale_strategy_with_table_limits [] ib L b = [0] ∧
      fibonacci_strategy_with_table_limits [] ib L b = [0]) := by
  refine ⟨⟨?_, ?_⟩, ⟨?_, ?_⟩, ⟨?_, ?_⟩, ⟨?_, ?_⟩, ⟨?_, ?_⟩, ⟨?_, ?_⟩,
    rfl, rfl, rfl, rfl, rfl, rfl⟩
  · rw [no_strategy, noStrategyStates, traj_length, flagsOf_length]
  · rw [no_strategy, noStrategyStates, traj_getD_zero]
  · rw [martingale_strategy, martingaleStates, traj_length, flagsOf_length]
  · rw [martingale_strategy, martingaleStates, traj_getD_zero]
  · rw [fibonacci_strategy, fibStates, traj_length, flagsOf_length]
  · rw [fibonacci_strategy, fibStates, traj_getD_zero]
  · rw [d_alembert_strategy, dAlembertStates, traj_length, flagsOf_length]
  · rw [d_alembert_strategy, dAlembertStates, traj_getD_zero]
  · rw [martingale_strategy_with_table_limits, martingaleLimStates, traj_length,
      flagsOf_length]
  · rw [martingale_strategy_with_table_limits, martingaleLimStates, traj_getD_zero]
  · rw [fibonacci_strategy_with_table_limits, fibLimStates, traj_length, flagsOf_length]
  · rw [fibonacci_strategy_with_table_limits, fibLimStates, traj_getD_zero]

/-- C2: the Martingale bet state starts at `initial_bet`; on each spin, a
win appends `balance + bet` and resets the bet to `initial_bet`, a loss
appends `balance - bet` and doubles the bet. -/
theorem martingale_step_spec (data : List Spin) (ib : Int) (b : BetType) (i : Nat)
    (h : i < data.length) :
    (martingaleStates data ib b).getD 0 betStateD = ⟨ib, 0⟩ ∧
    ((data.getD i spinD).win b = true →
      ((martingaleStates data ib b).getD (i + 1) betStateD).balance =
        ((martingaleStates data ib b).getD i betStateD).balance +
          ((martingaleStates data ib b).getD i betStateD).bet ∧
      ((martingaleStates data ib b).getD (i + 1) betStateD).bet = ib) ∧
    ((data.getD i spinD).win b = false →
      ((martingaleStates data ib b).getD (i + 1) betStateD).balance =
        ((martingaleStates data ib b).getD i betStateD).balance -
          ((martingaleStates data ib b).getD i betStateD).bet ∧
      ((martingaleStates data ib b).getD (i + 1) betStateD).bet =
        ((martingaleStates data ib b).getD i betStateD).bet * 2) := by
  have hlen : i < (flagsOf data b).length := by
    rw [flagsOf_length]
    exact h
  have hsucc := runStates_getD_succ (martingaleStep ib) ⟨ib, 0⟩ betStateD (flagsOf data b) i hlen
  have hflag := flagsOf_getD data b i h
  refine ⟨?_, ?_, ?_⟩
  · rw [martingaleStates, runStates_getD_zero]
  · intro hw
    rw [hflag, hw, martingaleStep_win] at hsucc
    simp only [martingaleStates]
    rw [hsucc]
    exact ⟨rfl, rfl⟩
  · intro hw
    rw [hflag, hw, martingaleStep_loss] at hsucc
    simp only [martingaleStates]
    rw [hsucc]
    exact ⟨rfl, rfl⟩

/-- Witness for C2 at one all-win spin with initial bet 7. -/
theorem martingale_step_spec_witness :
    ((martingaleStates dataW1 7 BetType.red).getD 1 betStateD).bet = 7 ∧
    ((martingaleStates dataW1 7 BetType.red).getD 1 betStateD).balance = 7 := by
  have h := martingale_step_spec dataW1 7 BetType.red 0 (by decide)
  have hw := h.2.1 (by decide)
  refine ⟨hw.2, ?_⟩
  rw [hw.1, h.1]
  decide

/-- C10: in both Fibonacci simulators the current index is strictly below
the length of the maintained sequence in every reachable state, so the
access `sequences[bet_type][current_index]` is always in bounds. -/
theorem fib_index_in_bounds (data : List Spin) (ib L : Int) (b : BetType) :
    (∀ st ∈ fibStates data ib b, st.idx < st.seq.length) ∧
    (∀ st ∈ fibLimStates data ib L b, st.idx < st.seq.length) :=
  ⟨fibStates_bounds data ib b, fibLimStates_bounds data ib L b⟩

/-- Witness for C10 at the state reached after two losing spins. -/
theorem fib_index_in_bounds_witness :
    (⟨[1, 1, 2], 2, -2⟩ : FibState).idx < (⟨[1, 1, 2], 2, -2⟩ : FibState).seq.length :=
  (fib_index_in_bounds dataL2 1 5 BetType.red).1 ⟨[1, 1, 2], 2, -2⟩ (by decide)

/-- C3: the Fibonacci simulator starts with sequence `[1, 1]` and index
`0`; each spin it wagers `sequence[index] * initial_bet`; a win appends
`balance + bet` and retreats the index to `max(0, index - 2)` leaving the
sequence unchanged; a loss appends `balance - bet`, advances the index by
one, extends the sequence with the sum of its last two terms exactly when
the new index reaches its length, and leaves `sequence[index]` defined. -/
theorem fibonacci_step_spec (data : List Spin) (ib : Int) (b : BetType) (i : Nat)
    (h : i < data.length) :
    (fibStates data ib b).getD 0 fibD = ⟨[1, 1], 0, 0⟩ ∧
    ((data.getD i spinD).win b = true →
      ((fibStates data ib b).getD (i + 1) fibD).balance =
        ((fibStates data ib b).getD i fibD).balance +
          ((fibStates data ib b).getD i fibD).seq.getD
            ((fibStates data ib b).getD i fibD).idx 0 * ib ∧
      (((fibStates data ib b).getD (i + 1) fibD).idx : Int) =
        max 0 ((((fibStates data ib b).getD i fibD).idx : Int) - 2) ∧
      ((fibStates data ib b).getD (i + 1) fibD).seq =
        ((fibStates data ib b).getD i fibD).seq) ∧
    ((data.getD i spinD).win b = false →
      ((fibStates data ib b).getD (i + 1) fibD).balance =
        ((fibStates data ib b).getD i fibD).balance -
          ((fibStates data ib b).getD i fibD).seq.getD
            ((fibStates data ib b).getD i fibD).idx 0 * ib ∧
      ((fibStates data ib b).getD (i + 1) fibD).idx =
        ((fibStates data ib b).getD i fibD).idx + 1 ∧
      ((fibStates data ib b).getD (i + 1) fibD).seq =
        (if ((fibStates data ib b).getD i fibD).seq.length ≤
            ((fibStates data ib b).getD i fibD).idx + 1
         then fibExtend ((fibStates data ib b).getD i fibD).seq
         else ((fibStates data ib b).getD i fibD).seq) ∧
      ((fibStates data ib b).getD (i + 1) fibD).idx <
        ((fibStates data ib b).getD (i + 1) fibD).seq.length) := by
  have hlen : i < (flagsOf data b).length := by
    rw [flagsOf_length]
    exact h
  have hsucc := runStates_getD_succ (fibStep ib) ⟨[1, 1], 0, 0⟩ fibD (flagsOf data b) i hlen
  have hflag := flagsOf_getD data b i h
  have hmem : (fibStates data ib b).getD (i + 1) fibD ∈ fibStates data ib b := by
    apply getD_mem
    rw [fibStates, runStates_length, flagsOf_length]
    omega
  have hbound := fibStates_bounds data ib b _ hmem
  refine ⟨?_, ?_, ?_⟩
  · rw [fibStates, runStates_getD_zero]
  · intro hw
    rw [hflag, hw, fibStep_win] at hsucc
    simp only [fibStates] at hsucc ⊢
    rw [hsucc]
    refine ⟨rfl, ?_, rfl⟩
    dsimp only
    omega
  · intro hw
    rw [hflag, hw, fibStep_loss] at hsucc
    simp only [fibStates] at hsucc hbound ⊢
    rw [hsucc]
    rw [hsucc] at hbound
    exact ⟨rfl, rfl, rfl, hbound⟩

/-- Witness for C3 at one all-win spin with initial bet 10. -/
theorem fibonacci_step_spec_witness :
    ((fibStates dataW1 10 BetType.red).getD 1 fibD).balance = 10 ∧
    ((fibStates dataW1 10 BetType.red).getD 1 fibD).seq = [1, 1] := by
  have h := fibonacci_step_spec dataW1 10 BetType.red 0 (by decide)
  have hw := h.2.1 (by decide)
  constructor
  · rw [hw.1, h.1]
    decide
  · rw [hw.2.2, h.1]

/-- C4: throughout every run of `fibonacci_strategy`, the maintained
sequence of every bet type is an initial segment of the classic Fibonacci
sequence seeded `[1, 1]`, is monotonically non-decreasing, and from each
state to the next it is only ever extended (the earlier sequence is an
initial segment of the later one), never shrunk. -/
theorem fib_seq_invariant (data : List Spin) (ib : Int) (b : BetType) :
    (∀ st ∈ fibStates data ib b, FibSeeded st.seq ∧
      ∀ i, i + 1 < st.seq.length → st.seq.getD i 0 ≤ st.seq.getD (i + 1) 0) ∧
    (∀ i < data.length, ∃ t,
      ((fibStates data ib b).getD i fibD).seq ++ t =
        ((fibStates data ib b).getD (i + 1) fibD).seq) := by
  constructor
  · intro st hst
    have hs := fibStates_seeded data ib b st hst
    exact ⟨hs, fun i hi => hs.nondecreasing i hi⟩
  · intro i hi
    have hlen : i < (flagsOf data b).length := by
      rw [flagsOf_length]
      exact hi
    have hsucc := runStates_getD_succ (fibStep ib) ⟨[1, 1], 0, 0⟩ fibD (flagsOf data b) i hlen
    simp only [fibStates]
    rw [hsucc]
    exact fibStep_seq_extend ib _ _

/-- Witness for C4 at the state reached after two losing spins. -/
theorem fib_seq_invariant_witness :
    (⟨[1, 1, 2], 2, -2⟩ : FibState).seq.getD 2 0 = fibRef 2 ∧
    (⟨[1, 1, 2], 2, -2⟩ : FibState).seq.getD 1 0 ≤
      (⟨[1, 1, 2], 2, -2⟩ : FibState).seq.getD 2 0 := by
  have h := (fib_seq_invariant dataL2 1 BetType.red).1 ⟨[1, 1, 2], 2, -2⟩ (by decide)
  exact ⟨h.1.2 2 (by decide), h.2 1 (by decide)⟩

/-- C7 (amended): the D'Alembert bet state starts at `initial_bet`; a win
appends `balance + bet` and sets the bet to `max(initial_bet, bet - initial_bet)`,
a loss appends `balance - bet` and sets it to `bet + initial_bet`; when
`initial_bet` is non-negative the bet state is never below `initial_bet`. -/
theorem d_alembert_floor (data : List Spin) (ib : Int) (b : BetType) (i : Nat)
    (h : i < data.length) :
    (dAlembertStates data ib b).getD 0 betStateD = ⟨ib, 0⟩ ∧
    ((data.getD i spinD).win b = true →
      ((dAlembertStates data ib b).getD (i + 1) betStateD).balance =
        ((dAlembertStates data ib b).getD i betStateD).balance +
          ((dAlembertStates data ib b).getD i betStateD).bet ∧
      ((dAlembertStates data ib b).getD (i + 1) betStateD).bet =
        max ib (((dAlembertStates data ib b).getD i betStateD).bet - ib)) ∧
    ((data.getD i spinD).win b = false →
      ((dAlembertStates data ib b).getD (i + 1) betStateD).balance =
        ((dAlembertStates data ib b).getD i betStateD).balance -
          ((dAlembertStates data ib b).getD i betStateD).bet ∧
      ((dAlembertStates data ib b).getD (i + 1) betStateD).bet =
        ((dAlembertStates data ib b).getD i betStateD).bet + ib) ∧
    (0 ≤ ib → ∀ st ∈ dAlembertStates data ib b, ib ≤ st.bet) := by
  have hlen : i < (flagsOf data b).length := by
    rw [flagsOf_length]
    exact h
  have hsucc := runStates_getD_succ (dAlembertStep ib) ⟨ib, 0⟩ betStateD (flagsOf data b) i hlen
  have hflag := flagsOf_getD data b i h
  refine ⟨?_, ?_, ?_, ?_⟩
  · rw [dAlembertStates, runStates_getD_zero]
  · intro hw
    rw [hflag, hw, dAlembertStep_win] at hsucc
    simp only [dAlembertStates]
    rw [hsucc]
    exact ⟨rfl, rfl⟩
  · intro hw
    rw [hflag, hw, dAlembertStep_loss] at hsucc
    simp only [dAlembertStates]
    rw [hsucc]
    exact ⟨rfl, rfl⟩
  · intro h0
    exact dAlembertStates_bet_ge data ib b h0

/-- Witness for C7 at one all-win spin with initial bet 5. -/
theorem d_alembert_floor_witness :
    ((dAlembertStates dataW1 5 BetType.red).getD 1 betStateD).balance = 5 ∧
    ((dAlembertStates dataW1 5 BetType.red).getD 1 betStateD).bet = 5 := by
  have h := d_alembert_floor dataW1 5 BetType.red 0 (by decide)
  have hw := h.2.1 (by decide)
  constructor
  · rw [hw.1, h.1]
    decide
  · rw [hw.2, h.1]
    decide

/-- C7 counterexample: with `initial_bet = -5` a single loss drives the
bet state to `-10`, strictly below `initial_bet`, so the claim fails for
negative initial bets. -/
theorem d_alembert_floor_cex :
    ((dAlembertStates dataL1 (-5) BetType.red).getD 1 betStateD).bet = -10 ∧
    ((dAlembertStates dataL1 (-5) BetType.red).getD 1 betStateD).bet < -5 := by
  exact ⟨by decide, by decide⟩

/-- C5 (amended): the table-limit Martingale wagers `min(current_bet, L)`
each spin, so no wager exceeds `L`; a win adds the clamped wager and
resets the stored bet to `initial_bet`, a loss subtracts the clamped
wager and sets the stored bet to `min(current_bet * 2, L)`; and when `L`
equals a non-negative `initial_bet`, every wager equals `initial_bet`. -/
theorem martingale_limits_spec (data : List Spin) (ib L : Int) (b : BetType) (i : Nat)
    (h : i < data.length) :
    (martingaleLimWagers data ib L b).getD i 0 =
      min (((martingaleLimStates data ib L b).getD i betStateD).bet) L ∧
    (martingaleLimWagers data ib L b).getD i 0 ≤ L ∧
    ((data.getD i spinD).win b = true →
      ((martingaleLimStates data ib L b).getD (i + 1) betStateD).balance =
        ((martingaleLimStates data ib L b).getD i betStateD).balance +
          min (((martingaleLimStates data ib L b).getD i betStateD).bet) L ∧
      ((martingaleLimStates data ib L b).getD (i + 1) betStateD).bet = ib) ∧
    ((data.getD i spinD).win b = false →
      ((martingaleLimStates data ib L b).getD (i + 1) betStateD).balance =
        ((martingaleLimStates data ib L b).getD i betStateD).balance -
          min (((martingaleLimStates data ib L b).getD i betStateD).bet) L ∧
      ((martingaleLimStates data ib L b).getD (i + 1) betStateD).bet =
        min (((martingaleLimStates data ib L b).getD i betStateD).bet * 2) L) ∧
    (L = ib → 0 ≤ ib → ∀ w ∈ martingaleLimWagers data ib L b, w = ib) := by
  have hslen : (martingaleLimStates data ib L b).length = data.length + 1 := by
    rw [martingaleLimStates, runStates_length, flagsOf_length]
  have hwag : (martingaleLimWagers data ib L b).getD i 0 =
      min (((martingaleLimStates data ib L b).getD i betStateD).bet) L := by
    rw [martingaleLimWagers,
      getD_map_lt _ _ i (by rw [List.length_dropLast, hslen]; omega) 0 betStateD,
      getD_dropLast_lt _ i (by omega) betStateD]
  have hlen : i < (flagsOf data b).length := by
    rw [flagsOf_length]
    exact h
  have hsucc := runStates_getD_succ (martingaleLimStep ib L) ⟨ib, 0⟩ betStateD
    (flagsOf data b) i hlen
  have hflag := flagsOf_getD data b i h
  refine ⟨hwag, ?_, ?_, ?_, ?_⟩
  · rw [hwag]
    exact min_le_right _ _
  · intro hw
    rw [hflag, hw, martingaleLimStep_win] at hsucc
    simp only [martingaleLimStates] at hsucc ⊢
    rw [hsucc]
    exact ⟨rfl, rfl⟩
  · intro hw
    rw [hflag, hw, martingaleLimStep_loss] at hsucc
    simp only [martingaleLimStates] at hsucc ⊢
    rw [hsucc]
    exact ⟨rfl, rfl⟩
  · intro hL h0 w hwmem
    rw [martingaleLimWagers] at hwmem
    obtain ⟨s, hs, rfl⟩ := List.mem_map.mp hwmem
    have hsmem : s ∈ martingaleLimStates data ib L b := List.mem_of_mem_dropLast hs
    rw [hL] at hsmem
    have hge := martingaleLimStates_bet_ge data ib b h0 s hsmem
    rw [hL]
    exact min_eq_right hge

/-- Witness for C5 at one all-loss spin, initial bet 5, table limit 10. -/
theorem martingale_limits_spec_witness :
    (martingaleLimWagers dataL1 5 10 BetType.red).getD 0 0 ≤ 10 ∧
    ((martingaleLimStates dataL1 5 10 BetType.red).getD 1 betStateD).bet =
      min (((martingaleLimStates dataL1 5 10 BetType.red).getD 0 betStateD).bet * 2) 10 := by
  have h := martingale_limits_spec dataL1 5 10 BetType.red 0 (by decide)
  exact ⟨h.2.1, (h.2.2.2.1 (by decide)).2⟩

/-- C5 counterexample: with `initial_bet = table_limit = -1` and two
losses, the second wager is `-2`, strictly below `initial_bet`, so the
flat-betting part of the claim fails for negative initial bets. -/
theorem martingale_limits_flat_cex :
    (martingaleLimWagers dataL2 (-1) (-1) BetType.red).getD 1 0 = -2 ∧
    (martingaleLimWagers dataL2 (-1) (-1) BetType.red).getD 1 0 < -1 := by
  exact ⟨by decide, by decide⟩

/-- C6: the table-limit Fibonacci wagers exactly
`min(sequence[index] * initial_bet, L)` each spin, so no wager exceeds
`L`; its sequence/index progression is identical to the unconstrained
`fibonacci_strategy` and is not capped, and under an all-loss streak of
any length the index keeps advancing one step per spin. -/
theorem fibonacci_limits_spec (data : List Spin) (ib L : Int) (b : BetType) (i : Nat)
    (h : i < data.length) :
    (fibLimWagers data ib L b).getD i 0 =
      min (((fibLimStates data ib L b).getD i fibD).seq.getD
          ((fibLimStates data ib L b).getD i fibD).idx 0 * ib) L ∧
    (fibLimWagers data ib L b).getD i 0 ≤ L ∧
    (fibLimStates data ib L b).map (fun st => (st.seq, st.idx)) =
      (fibStates data ib b).map (fun st => (st.seq, st.idx)) ∧
    (∀ n, ∀ k ≤ n, ((fibLimStates (List.replicate n spinLoss) ib L b).getD k fibD).idx = k) := by
  have hslen : (fibLimStates data ib L b).length = data.length + 1 := by
    rw [fibLimStates, runStates_length, flagsOf_length]
  have hwag : (fibLimWagers data ib L b).getD i 0 =
      min (((fibLimStates data ib L b).getD i fibD).seq.getD
          ((fibLimStates data ib L b).getD i fibD).idx 0 * ib) L := by
    rw [fibLimWagers,
      getD_map_lt _ _ i (by rw [List.length_dropLast, hslen]; omega) 0 fibD,
      getD_dropLast_lt _ i (by omega) fibD]
  refine ⟨hwag, ?_, fibLim_prog_eq data ib L b, fun n => fibLim_streak_idx ib L b n⟩
  rw [hwag]
  exact min_le_right _ _

/-- Witness for C6 at one all-loss spin, initial bet 5, table limit 10. -/
theorem fibonacci_limits_spec_witness :
    (fibLimWagers dataL1 5 10 BetType.red).getD 0 0 ≤ 10 ∧
    ((fibLimStates (List.replicate 2 spinLoss) 5 10 BetType.red).getD 2 fibD).idx = 2 := by
  have h := fibonacci_limits_spec dataL1 5 10 BetType.red 0 (by decide)
  exact ⟨h.2.1, h.2.2.2 2 2 (by omega)⟩

/-- C8 (amended): on four all-win spins with initial bet 10 the three
deterministic simulators return the red trajectory `[0, 10, 20, 30, 40]`;
`no_strategy` returns it when every draw equals 10, and conversely only
for draw streams whose three post-first draws all equal 10. -/
theorem all_win_scenario :
    martingale_strategy dataW4 10 BetType.red = [0, 10, 20, 30, 40] ∧
    fibonacci_strategy dataW4 10 BetType.red = [0, 10, 20, 30, 40] ∧
    d_alembert_strategy dataW4 10 BetType.red = [0, 10, 20, 30, 40] ∧
    no_strategy rand10 dataW4 10 BetType.red = [0, 10, 20, 30, 40] ∧
    (∀ rand : Nat → Int, no_strategy rand dataW4 10 BetType.red = [0, 10, 20, 30, 40] →
      rand 1 = 10 ∧ rand 2 = 10 ∧ rand 3 = 10) := by
  refine ⟨by decide, by decide, by decide, by decide, ?_⟩
  intro rand h
  simp only [no_strategy, noStrategyStates, flagsOf, dataW4, spinWin, Spin.win, runStates,
    noStrategyStep, noStrategyBet, List.map_cons, List.map_nil, List.cons.injEq,
    List.nil_eq] at h
  norm_num at h
  omega

/-- Witness for the converse part of C8: the all-10 stream satisfies its
hypothesis. -/
theorem all_win_scenario_witness :
    rand10 1 = 10 ∧ rand10 2 = 10 ∧ rand10 3 = 10 :=
  all_win_scenario.2.2.2.2 rand10 (by decide)

/-- C8 counterexample: with every random draw equal to 5 (a value the
source's `randint(5, 20)` can produce), `no_strategy` returns
`[0, 10, 15, 20, 25]` on the same scenario: its entry after the second
spin is 15, strictly below the claimed 20, so the claim fails for
`no_strategy`. -/
theorem all_win_scenario_cex :
    no_strategy rand5 dataW4 10 BetType.red = [0, 10, 15, 20, 25] ∧
    (no_strategy rand5 dataW4 10 BetType.red).getD 2 0 < 20 := by
  exact ⟨by decide, by decide⟩

/-- C9 (amended): `no_strategy` wagers exactly `initial_bet` on the first
spin; each later spin `i` it wagers the single draw `rand i`, which lies
in `[5, 20]` whenever every draw does; and the same draw is shared by all
four bet types: the balance step of every bet type `b` uses the one
bet-type-independent amount `noStrategyBet initial_bet rand i`. -/
theorem no_strategy_bets (rand : Nat → Int) (data : List Spin) (ib : Int) (b : BetType)
    (i : Nat) (hr : ∀ j, 5 ≤ rand j ∧ rand j ≤ 20) (h : i < data.length) :
    noStrategyBet ib rand 0 = ib ∧
    (1 ≤ i → 5 ≤ noStrategyBet ib rand i ∧ noStrategyBet ib rand i ≤ 20) ∧
    ((noStrategyStates rand data ib b).getD i noStateD).spin = i ∧
    ((noStrategyStates rand data ib b).getD (i + 1) noStateD).balance =
      ((noStrategyStates rand data ib b).getD i noStateD).balance +
        (if (data.getD i spinD).win b = true then noStrategyBet ib rand i
         else -(noStrategyBet ib rand i)) := by
  have hlen : i < (flagsOf data b).length := by
    rw [flagsOf_length]
    exact h
  have hsucc := runStates_getD_succ (noStrategyStep ib rand) ⟨0, 0⟩ noStateD
    (flagsOf data b) i hlen
  have hflag := flagsOf_getD data b i h
  have hspin := noStrategyStates_spin rand data ib b i (by omega)
  refine ⟨rfl, ?_, hspin, ?_⟩
  · intro h1
    simp only [noStrategyBet]
    rw [if_neg (by omega)]
    exact hr i
  · rw [hflag] at hsucc
    rw [noStrategyStates] at hspin ⊢
    rw [hsucc, noStrategyStep_eq]
    dsimp only
    rw [hspin]

/-- Witness for C9 on two all-win spins with constant draw 7. -/
theorem no_strategy_bets_witness :
    noStrategyBet 10 rand7 0 = 10 ∧
    5 ≤ noStrategyBet 10 rand7 1 ∧
    ((noStrategyStates rand7 dataW2 10 BetType.red).getD 2 noStateD).balance =
      ((noStrategyStates rand7 dataW2 10 BetType.red).getD 1 noStateD).balance + 7 := by
  have h := no_strategy_bets rand7 dataW2 10 BetType.red 1
    (by intro j; exact ⟨show (5 : Int) ≤ 7 by decide, show (7 : Int) ≤ 20 by decide⟩)
    (by decide)
  refine ⟨h.1, (h.2.1 (by decide)).1, ?_⟩
  rw [h.2.2.2]
  have h5 : (if (dataW2.getD 1 spinD).win BetType.red = true then noStrategyBet 10 rand7 1
      else -(noStrategyBet 10 rand7 1)) = 7 := by decide
  rw [h5]

/-- C9 counterexample: the source draws once per spin and shares the
amount across the four bet types, so the draws are not independent per
bet type: under the spec's independent per-bet-type draws (stream
`randB0`, red drawing 15 and black 16) the black trajectory on two
all-win spins is `[0, 10, 26]`, while the code run on a single shared
stream (here red's) makes the black trajectory `[0, 10, 25]`, identical
to the red one. -/
theorem no_strategy_shared_draw_cex :
    no_strategy_indep_draws randB0 dataW2 10 BetType.black = [0, 10, 26] ∧
    no_strategy (randB0 BetType.red) dataW2 10 BetType.black = [0, 10, 25] ∧
    no_strategy (randB0 BetType.red) dataW2 10 BetType.red = [0, 10, 25] := by
  exact ⟨by decide, by decide, by decide⟩

end RouletteSim
